import Mathlib

/-!
Verification of the permutation-testing engine of
`src/nilearn/mass_univariate/permuted_least_squares.py`.

Matrices are embedded as rectangular lists of rows over `ℚ` (the exact
fraction semantics of the floating-point code; no claim settled here depends
on rounding).  External collaborators that are not code of this repository
are passed in as explicit parameters:
* `np.sqrt` (used by `normalize_matrix_on_axis`) is a parameter `sq : ℚ → ℚ`;
* `scipy.linalg.svd` (used by `orthonormalize_matrix`) is a parameter
  `svd : Mat → Mat × List ℚ` returning `(U, s)`;
* `joblib.cpu_count()` is a parameter `cpuCount : ℕ`;
* the numpy random generator is a parameter `rng : ℕ → ℕ → RngOut` mapping a
  seed and a draw index to the outputs of the two generator calls the worker
  loop can make (`rng.randint(2, size=(1, n_samples))` and
  `rng.permutation(n_samples)`).  The loop consumes draws in order, so a
  chunk of `c` permutations seeded with `s` consumes
  `(List.range c).map (rng s)`.
-/

namespace Nilearn

/-- A 2-D numpy array: a list of rows. -/
abbrev Mat := List (List ℚ)

/-- Number of rows (`m.shape[0]`). -/
def nrows (m : Mat) : ℕ := m.length

/-- Number of columns (`m.shape[1]`, read off the first row). -/
def ncols (m : Mat) : ℕ := (m.headD []).length

/-- Dot product of two vectors (truncating, as all realizable calls have
equal lengths). -/
def dotQ (u v : List ℚ) : ℚ := (List.zipWith (· * ·) u v).sum

/-- Column `j` of a matrix. -/
def colOf (m : Mat) (j : ℕ) : List ℚ := m.map (fun row => row.getD j 0)

/-- Matrix transposition (`m.T`). -/
def mtranspose (m : Mat) : Mat := (List.range (ncols m)).map (fun j => colOf m j)

/-- Matrix product (`np.dot`). -/
def matmul (a b : Mat) : Mat :=
  a.map (fun row => (mtranspose b).map (fun col => dotQ row col))

/-- Elementwise difference of equal-shaped matrices (`a - b`). -/
def matSub (a b : Mat) : Mat := List.zipWith (List.zipWith (· - ·)) a b

/-- Column `j` appended with ones: `np.hstack((a, b))` for 2-D arrays. -/
def hstack2 (a b : Mat) : Mat := List.zipWith (· ++ ·) a b

/-- `np.hstack` over a list of 2-D arrays with equal row counts. -/
def hstackList : List Mat → Mat
  | [] => []
  | h :: t => t.foldl hstack2 h

/-- The column vector `np.ones((n_samples, 1))`. -/
def onesCol (n : ℕ) : Mat := List.replicate n [1]

/-- The array `np.zeros((r, d))` over `ℕ` (the rank accumulator holds
nonnegative integer counts; the source stores them in a float array). -/
def zerosMat (r d : ℕ) : List (List ℕ) := List.replicate r (List.replicate d 0)

/-- Cell access with numpy-unreachable indices defaulting to `0` (rational
matrices). -/
def cellQ (m : Mat) (i j : ℕ) : ℚ := (m.getD i []).getD j 0

/-- Cell access with numpy-unreachable indices defaulting to `0` (count
matrices). -/
def cellN (m : List (List ℕ)) (i j : ℕ) : ℕ := (m.getD i []).getD j 0

/-- Row addition for the rank accumulators.  On the equal lengths produced by
every realizable run this is exactly numpy's elementwise `+=`; on unequal
lengths (a numpy broadcast error) the longer tail is kept, which makes the
operation total, associative and commutative. -/
def addRow : List ℕ → List ℕ → List ℕ
  | [], ys => ys
  | xs, [] => xs
  | x :: xs, y :: ys => (x + y) :: addRow xs ys

/-- Matrix addition for the rank accumulators (see `addRow`). -/
def addMatN : List (List ℕ) → List (List ℕ) → List (List ℕ)
  | [], bs => bs
  | as, [] => as
  | a :: as, b :: bs => addRow a b :: addMatN as bs

/-- The orchestrator's reduction `scores_as_ranks += scores_as_ranks_part`
over all worker outputs, seeded with `np.zeros((n_regressors,
n_descriptors))` (lines 413-415). -/
def sumRanks (z : List (List ℕ)) (parts : List (List (List ℕ))) : List (List ℕ) :=
  parts.foldl addMatN z

/-! ### `normalize_matrix_on_axis` (lines 14-54) -/

/-- The vector `np.sqrt(np.sum(m ** 2, axis=0))` of column norms, with
`np.sqrt` supplied as the external parameter `sq`. -/
def colNorms (sq : ℚ → ℚ) (m : Mat) : List ℚ :=
  (mtranspose m).map (fun col => sq ((col.map (fun x => x * x)).sum))

/-- Normalization along axis 0: every column is divided by its L2 norm
(`(m.T / np.sqrt(np.sum(m ** 2, axis=0))[:, np.newaxis]).T`).  A zero column
gives numpy division by zero; over `ℚ` the quotient is the junk value `0`. -/
def normalize0 (sq : ℚ → ℚ) (m : Mat) : Mat :=
  m.map (fun row => List.zipWith (fun x s => x / s) row (colNorms sq m))

/-- `normalize_matrix_on_axis(m, axis)`.  The source recurses into axis 0 on
the transpose for axis 1 and raises for any other axis; inputs of dimension
other than 2 are not representable in `Mat`.  Only axes 0 and 1 are ever
passed by the engine, so the axis error branch is dropped and any `axis ≠ 0`
is treated as axis 1. -/
def normalize_matrix_on_axis (sq : ℚ → ℚ) (m : Mat) (axis : ℕ := 0) : Mat :=
  if axis = 0 then normalize0 sq m
  else mtranspose (normalize0 sq (mtranspose m))

/-! ### `orthonormalize_matrix` (lines 57-91) -/

/-- `orthonormalize_matrix(m, tol)`: compute `U, s, _ = linalg.svd(m)` (the
external `svd` parameter), count the singular values above the tolerance, and
keep that many left singular vectors (`U[:, :n_eig]`). -/
def orthonormalize_matrix (svd : Mat → Mat × List ℚ) (m : Mat)
    (tol : ℚ := 1 / 10 ^ 12) : Mat :=
  let u := (svd m).1
  let s := (svd m).2
  let n_eig := (s.filter (fun x => tol < x)).length
  u.map (fun row => row.take n_eig)

/-! ### `_f_score`, fast path (`normalized_design=True`, lines 141-157)

Every call the engine makes uses `normalized_design=True`; the slow path
(lines 123-140) only normalizes/orthogonalizes and recurses into the fast
path and is never reached from `permuted_ols`, so the fast path is what is
embedded. -/

/-- Number of confound columns (`lost_dof`, lines 142-145). -/
def lost_dof (covars : Option Mat) : ℕ :=
  match covars with
  | none => 0
  | some c => ncols c

/-- `b2 = np.dot(vars2.T, vars1) ** 2` (lines 147-148),
shape `(n_var2, n_var1)`. -/
def b2_of (vars1 vars2 : Mat) : Mat :=
  (matmul (mtranspose vars2) vars1).map (fun row => row.map (fun x => x * x))

/-- `a2 = np.sum(np.dot(vars2.T, covars) ** 2, 1)` (lines 152-153), one value
per target variate. -/
def a2_of (vars2 covars : Mat) : List ℚ :=
  (matmul (mtranspose vars2) covars).map (fun row => (row.map (fun x => x * x)).sum)

/-- The residual sum of squares `rss` exactly as computed on lines 149-154:
`1 - b2` without covariates, `1 - a2[:, np.newaxis] - b2` with covariates.
No floor or clamp is applied. -/
def rss_of (vars1 vars2 : Mat) (covars : Option Mat) : Mat :=
  match covars with
  | none => (b2_of vars1 vars2).map (fun row => row.map (fun b => 1 - b))
  | some c =>
    List.zipWith (fun row a => row.map (fun b => 1 - a - b))
      (b2_of vars1 vars2) (a2_of vars2 c)

/-- `_f_score(vars1, vars2, covars, normalized_design=True)`:
`dof = vars2.shape[0] - 1 - lost_dof`, `score = b2 / rss * dof`
(lines 146-157).  Division by a zero `rss` cell is numpy division by zero;
over `ℚ` it yields the junk value `0`. -/
def f_score (vars1 vars2 : Mat) (covars : Option Mat) : Mat :=
  let dof : ℚ := (nrows vars2 : ℚ) - 1 - (lost_dof covars : ℚ)
  List.zipWith (List.zipWith (fun b r => b / r * dof))
    (b2_of vars1 vars2) (rss_of vars1 vars2 covars)

/-! ### `_permuted_ols_on_chunk` (lines 160-234) -/

/-- One step of the numpy random generator, as consumed by the worker loop.
`randint2` is the row vector `rng.randint(2, size=(1, n_samples))` (entries 0
or 1) and `permIdx` is `rng.permutation(n_samples)`.  Each loop iteration
makes exactly one of the two calls, selected by `intercept_test`; the other
field is never read on that branch. -/
structure RngOut where
  randint2 : List ℚ
  permIdx : List ℕ
deriving Repr

/-- The data the worker rebinds while looping: `tested_vars`, `target_vars`
and `confounding_vars` (lines 209, 218, 220). -/
structure PermState where
  tested : Mat
  target : Mat
  covars : Option Mat
deriving Repr

/-- The intercept branch's update
`target_vars = (target_vars * rng.randint(2, size=(1, n_samples)) * 2 - 1)`
(lines 209-210).  Note the literal operator placement: the draw `r` is
multiplied into `target_vars` first, then the whole product is doubled and
decremented, and `r` has shape `(1, n_samples)` so broadcasting scales the
entry in column `j` by `r j` (a numpy error unless the number of target
columns equals `n_samples` or one of them is 1; `zipWith` truncates
instead). -/
def sign_swap (t : Mat) (r : List ℚ) : Mat :=
  t.map (fun row => List.zipWith (fun x ri => x * ri * 2 - 1) row r)

/-- `m[shuffle_idx]`: numpy fancy row indexing. -/
def apply_shuffle (idx : List ℕ) (m : Mat) : Mat :=
  idx.map (fun i => m.getD i [])

/-- One iteration of the permutation loop's data update (lines 207-220):
sign swap of the target on the intercept branch, joint row shuffle of the
tested and confounding variates otherwise. -/
def permStep (intercept_test : Bool) (st : PermState) (d : RngOut) : PermState :=
  if intercept_test then
    { st with target := sign_swap st.target d.randint2 }
  else
    { st with tested := apply_shuffle d.permIdx st.tested,
              covars := st.covars.map (apply_shuffle d.permIdx) }

/-- `np.amax(perm_scores, 0)` (line 225): per-column maxima, i.e. the maximum
F-score over all descriptors for each regressor. -/
def amax0 (m : Mat) : List ℚ :=
  (mtranspose m).map (fun col => col.foldl max (col.headD 0))

/-- The boolean matrix `h0_fmax_part[i].reshape((-1, 1)) <
scores_original_data.T` added into the rank accumulator (lines 231-232);
`sT` is `scores_original_data.T`. -/
def rankIncr (h0row : List ℚ) (sT : Mat) : List (List ℕ) :=
  List.zipWith (fun h srow => srow.map (fun s => if h < s then 1 else 0)) h0row sT

/-- The permutation loop of `_permuted_ols_on_chunk` (lines 206-232),
threading the rebound data matrices (`st`), the rank accumulator (`ranks`,
seeded with zeros before the loop) and the list of per-permutation rows of
`h0_fmax_part` (`h0`), and consuming one random draw per iteration. -/
def chunkLoop (sT : Mat) (intercept_test : Bool) :
    PermState → List (List ℕ) → List (List ℚ) → List RngOut →
    List (List ℕ) × List (List ℚ) × PermState
  | st, ranks, h0, [] => (ranks, h0, st)
  | st, ranks, h0, d :: ds =>
    let st2 := permStep intercept_test st d
    let h0row := amax0 (f_score st2.tested st2.target st2.covars)
    chunkLoop sT intercept_test st2
      (addMatN ranks (rankIncr h0row sT)) (h0 ++ [h0row]) ds

/-- `_permuted_ols_on_chunk(scores_original_data, tested_vars, target_vars,
confounding_vars, n_perm_chunk, intercept_test, random_state)` with the
random generator abstracted into the explicit draw list `draws`
(`n_perm_chunk = draws.length`).  Returns `(scores_as_ranks_part,
h0_fmax_part.T)` (line 234). -/
def permuted_ols_on_chunk (scores_original_data : Mat)
    (tested_vars target_vars : Mat) (confounding_vars : Option Mat)
    (intercept_test : Bool) (draws : List RngOut) :
    List (List ℕ) × Mat :=
  let n_regressors := ncols tested_vars
  let n_descriptors := ncols target_vars
  let r := chunkLoop (mtranspose scores_original_data) intercept_test
    ⟨tested_vars, target_vars, confounding_vars⟩
    (zerosMat n_regressors n_descriptors) [] draws
  (r.1, mtranspose r.2.1)

/-! ### `permuted_ols` (lines 237-419) -/

/-- External collaborators of the engine that are not code of this
repository: `np.sqrt`, `scipy.linalg.svd` (returning `(U, s)`; the third SVD
factor is discarded by the source) and `joblib.cpu_count()`. -/
structure Ext where
  sq : ℚ → ℚ
  svd : Mat → Mat × List ℚ
  cpuCount : ℕ

/-- The value the `n_jobs` check resolves a nonzero request to (lines
314-317): `max(1, joblib.cpu_count() - int(n_jobs) + 1)` for negative
`n_jobs`, `min(n_jobs, joblib.cpu_count())` otherwise. -/
def resolved_n_jobs (cpu : ℕ) (n_jobs : ℤ) : ℤ :=
  if n_jobs < 0 then max 1 ((cpu : ℤ) - n_jobs + 1)
  else min n_jobs (cpu : ℤ)

/-- The `n_jobs` validation (lines 308-317): `n_jobs == 0` raises a
`ValueError`, anything else resolves via `resolved_n_jobs`. -/
def resolve_n_jobs (cpu : ℕ) (n_jobs : ℤ) : Except String ℤ :=
  if n_jobs = 0 then
    .error "n_jobs == 0 is not a valid choice"
  else
    .ok (resolved_n_jobs cpu n_jobs)

/-- `np.unique(tested_vars).size == 1`: the matrix is nonempty and all its
entries are equal. -/
def uniqueCount1 (m : Mat) : Bool :=
  match m.flatten with
  | [] => false
  | x :: xs => xs.all (fun y => decide (y = x))

/-- The intercept-test detection (lines 332-336): exactly one tested
regressor, constant across samples. -/
def intercept_test_of (tested_vars : Mat) : Bool :=
  (ncols tested_vars == 1) && uniqueCount1 tested_vars

/-- The optional intercept column handling (lines 338-344): when
`model_intercept` holds and the test is not an intercept test, a constant
column is appended to the confounding variates (created if absent). -/
def adjusted_confounds (tested_vars : Mat) (confounding_vars : Option Mat)
    (model_intercept : Bool) : Option Mat :=
  if model_intercept && !(intercept_test_of tested_vars) then
    some (match confounding_vars with
          | some cv => hstack2 cv (onesCol (nrows tested_vars))
          | none => onesCol (nrows tested_vars))
  else confounding_vars

/-- The preparation of the normalized design (lines 346-392): with confounds,
orthonormalize them, normalize and residualize targets and tested variates
against that basis and re-normalize; without confounds, just normalize.
Returns `(testedvars_resid_covars, targetvars_resid_covars,
covars_orthonormalized)`; as in the source, `targetvars_resid_covars` is
stored transposed (descriptors × samples). -/
def residualize (E : Ext) (tested_vars target_vars : Mat)
    (confounding_vars : Option Mat) : Mat × Mat × Option Mat :=
  match confounding_vars with
  | some cv =>
    let covars_orthonormalized := orthonormalize_matrix E.svd cv
    let targetvars_normalized :=
      mtranspose (normalize_matrix_on_axis E.sq target_vars)
    let beta_targetvars_covars :=
      matmul targetvars_normalized covars_orthonormalized
    let targetvars_resid_covars :=
      matSub targetvars_normalized
        (matmul beta_targetvars_covars (mtranspose covars_orthonormalized))
    let targetvars_resid_covars :=
      normalize_matrix_on_axis E.sq targetvars_resid_covars 1
    let testedvars_normalized :=
      normalize_matrix_on_axis E.sq (mtranspose tested_vars) 1
    let beta_testedvars_covars :=
      matmul testedvars_normalized covars_orthonormalized
    let testedvars_resid_covars :=
      matSub testedvars_normalized
        (matmul beta_testedvars_covars (mtranspose covars_orthonormalized))
    let testedvars_resid_covars :=
      mtranspose (normalize_matrix_on_axis E.sq testedvars_resid_covars 1)
    (testedvars_resid_covars, targetvars_resid_covars, some covars_orthonormalized)
  | none =>
    (normalize_matrix_on_axis E.sq tested_vars,
     mtranspose (normalize_matrix_on_axis E.sq target_vars),
     none)

/-- The prepared design of a `permuted_ols` run: intercept handling followed
by residualization. -/
def ols_prepared (E : Ext) (tested_vars target_vars : Mat)
    (confounding_vars : Option Mat) (model_intercept : Bool) :
    Mat × Mat × Option Mat :=
  residualize E tested_vars target_vars
    (adjusted_confounds tested_vars confounding_vars model_intercept)

/-- `scores_original_data` (lines 388-392): the unpermuted F-scores,
`_f_score(testedvars_resid_covars, targetvars_resid_covars.T,
covars_orthonormalized, normalized_design=True)`. -/
def scores_original (E : Ext) (tested_vars target_vars : Mat)
    (confounding_vars : Option Mat) (model_intercept : Bool) : Mat :=
  let p := ols_prepared E tested_vars target_vars confounding_vars model_intercept
  f_score p.1 (mtranspose p.2.1) p.2.2

/-- The permutation budget split (lines 396-400), for `n_perm > 0`:
`n_jobs` chunks of `n_perm / n_jobs` with the integer-division remainder
added to the last when `n_perm > n_jobs`, otherwise `n_perm` chunks of one
permutation each. -/
def perm_chunks (n_perm n_jobs : ℤ) : List ℕ :=
  if n_jobs < n_perm then
    let np := n_perm.toNat
    let nj := n_jobs.toNat
    List.replicate (nj - 1) (np / nj) ++ [np / nj + np % nj]
  else
    List.replicate n_perm.toNat 1

/-- The draw list a chunk of `c` permutations consumes.  Every chunk is
seeded with the literal `0` (`random_state=0` on line 408), regardless of the
`random_state` argument of `permuted_ols`. -/
def chunkDraws (rng : ℕ → ℕ → RngOut) (c : ℕ) : List RngOut :=
  (List.range c).map (rng 0)

/-- The scatter phase (lines 404-409): one `_permuted_ols_on_chunk` call per
chunk of the budget, each on the shared prepared design and each with its own
freshly seeded generator. -/
def ols_parts (E : Ext) (rng : ℕ → ℕ → RngOut) (tested_vars target_vars : Mat)
    (confounding_vars : Option Mat) (model_intercept : Bool)
    (n_perm n_jobs : ℤ) : List (List (List ℕ) × Mat) :=
  let p := ols_prepared E tested_vars target_vars confounding_vars model_intercept
  (perm_chunks n_perm n_jobs).map (fun c =>
    permuted_ols_on_chunk
      (scores_original E tested_vars target_vars confounding_vars model_intercept)
      p.1 (mtranspose p.2.1) p.2.2
      (intercept_test_of tested_vars) (chunkDraws rng c))

/-- The gathered rank accumulator `scores_as_ranks` (lines 413-415). -/
def ols_ranks (E : Ext) (rng : ℕ → ℕ → RngOut) (tested_vars target_vars : Mat)
    (confounding_vars : Option Mat) (model_intercept : Bool)
    (n_perm n_jobs : ℤ) : List (List ℕ) :=
  sumRanks (zerosMat (ncols tested_vars) (ncols target_vars))
    ((ols_parts E rng tested_vars target_vars confounding_vars model_intercept
        n_perm n_jobs).map (·.1))

/-- The corrected p-values
`pvals = (n_perm + 1 - scores_as_ranks) / float(1 + n_perm)` (line 417).
The source reports `-np.log10(pvals)`, a shape-preserving strictly decreasing
elementwise transform of these values; the p-values themselves are what the
claims quantify over. -/
def ols_pvals (E : Ext) (rng : ℕ → ℕ → RngOut) (tested_vars target_vars : Mat)
    (confounding_vars : Option Mat) (model_intercept : Bool)
    (n_perm n_jobs : ℤ) : Mat :=
  (ols_ranks E rng tested_vars target_vars confounding_vars model_intercept
      n_perm n_jobs).map
    (fun row => row.map
      (fun x : ℕ => ((n_perm : ℚ) + 1 - (x : ℚ)) / (1 + (n_perm : ℚ))))

/-- The returned null distribution `h0_fmax[0]` (lines 411-412, 419): the
chunks' `h0_fmax_part.T` arrays are `np.hstack`-ed into an
`(n_regressors, n_perm)` array and only the first regressor's row is
returned.  No sorting is applied. -/
def ols_h0 (E : Ext) (rng : ℕ → ℕ → RngOut) (tested_vars target_vars : Mat)
    (confounding_vars : Option Mat) (model_intercept : Bool)
    (n_perm n_jobs : ℤ) : List ℚ :=
  (hstackList
    ((ols_parts E rng tested_vars target_vars confounding_vars model_intercept
        n_perm n_jobs).map (·.2))).headD []

/-- `permuted_ols(tested_vars, target_vars, confounding_vars,
model_intercept, n_perm, random_state, n_jobs)` (lines 237-419).
The returned triple is `(pvals, score_orig_data, h0_fmax[0])`, with the
elementwise `-np.log10` left off the first component (see `ols_pvals`).
`random_state` is accepted and, exactly as in the source, never used: every
chunk is seeded with the literal `0`.  The `target_vars.ndim != 2` check and
the 1-D promotion of `tested_vars` concern inputs that are not representable
in `Mat`, which is always 2-D.  The source branches
`if n_perm > n_jobs / elif n_perm > 0 / else` (lines 396-402); here the
`else` short-circuit is tested first and `perm_chunks` carries the other two
branches, which is the same case split. -/
def permuted_ols (E : Ext) (rng : ℕ → ℕ → RngOut)
    (tested_vars target_vars : Mat) (confounding_vars : Option Mat)
    (model_intercept : Bool) (n_perm : ℤ) (random_state : Option ℕ)
    (n_jobs : ℤ) : Except String (Mat × Mat × List ℚ) :=
  match resolve_n_jobs E.cpuCount n_jobs with
  | .error e => .error e
  | .ok nj =>
    if n_perm ≤ 0 then
      .ok ([],
           scores_original E tested_vars target_vars confounding_vars
             model_intercept,
           [])
    else
      .ok (ols_pvals E rng tested_vars target_vars confounding_vars
             model_intercept n_perm nj,
           scores_original E tested_vars target_vars confounding_vars
             model_intercept,
           ols_h0 E rng tested_vars target_vars confounding_vars
             model_intercept n_perm nj)

/-! ### Statement-side definitions used by the claims -/

/-- The permutation scheme the specification ascribes to the intercept-test
branch: the permuted target differs from the matrix it was derived from only
by a row-wise sign — every sample row is kept or negated wholesale, and rows
are never reordered. -/
def rowSignOnly (orig new : Mat) : Prop :=
  new.length = orig.length ∧
  ∀ i, i < orig.length →
    new.getD i [] = orig.getD i [] ∨
    new.getD i [] = (orig.getD i []).map (fun x => -x)

/-- Running the chunk worker on the consecutive pieces of a partition of a
draw sequence: each piece is handed the data state the previous piece ended
with (that is, the same realized sequence of permutation draws as the
unpartitioned run) and produces its own rank accumulator, exactly as
`_permuted_ols_on_chunk` would.  Returns the accumulators in order together
with the final data state. -/
def run_pieces (scores_original_data : Mat) (intercept_test : Bool) :
    PermState → List (List RngOut) → List (List (List ℕ)) × PermState
  | st, [] => ([], st)
  | st, p :: ps =>
    let w := permuted_ols_on_chunk scores_original_data st.tested st.target
      st.covars intercept_test p
    let st2 := (chunkLoop (mtranspose scores_original_data) intercept_test st
      (zerosMat (ncols st.tested) (ncols st.target)) [] p).2.2
    let rest := run_pieces scores_original_data intercept_test st2 ps
    (w.1 :: rest.1, rest.2)

/-! ### Concrete instantiations of the external parameters, used to evaluate
the engine on explicit inputs -/

/-- A rational square root valid on every value the concrete runs below apply
it to: the column-norm squares that occur are exactly `1` and `25`. -/
def sqrtEx : ℚ → ℚ := fun q => if q = 1 then 1 else if q = 25 then 5 else 0

/-- A placeholder SVD; the concrete runs below never pass confounds, so
`orthonormalize_matrix` (the only svd caller) is never reached. -/
def svdEx : Mat → Mat × List ℚ := fun m => (m, [])

/-- External parameters of the concrete runs: `sqrtEx`, `svdEx`, one CPU. -/
def extEx : Ext := ⟨sqrtEx, svdEx, 1⟩

/-- A concrete random stream for seed-independent runs: every draw is the
identity relabelling of three samples. -/
def rngId : ℕ → ℕ → RngOut := fun _ _ => ⟨[], [0, 1, 2]⟩

/-- A concrete random stream whose first three shuffles cycle the single
tested regressor of the three-sample run through its three positions. -/
def rngCyc : ℕ → ℕ → RngOut := fun _ i =>
  if i = 0 then ⟨[], [1, 0, 2]⟩
  else if i = 1 then ⟨[], [0, 2, 1]⟩
  else ⟨[], [2, 0, 1]⟩

/-! ### Helper lemmas about the rank-accumulator arithmetic -/

theorem getD_addRow (u v : List ℕ) (j : ℕ) :
    (addRow u v).getD j 0 = u.getD j 0 + v.getD j 0 := by
  induction u generalizing v j with
  | nil => simp [addRow]
  | cons x xs ih =>
    cases v with
    | nil => simp [addRow]
    | cons y ys =>
      cases j with
      | zero => simp [addRow]
      | succ j => simpa [addRow] using ih ys j

theorem cellN_addMatN (a b : List (List ℕ)) (i j : ℕ) :
    cellN (addMatN a b) i j = cellN a i j + cellN b i j := by
  induction a generalizing b i with
  | nil => simp [addMatN, cellN]
  | cons r rs ih =>
    cases b with
    | nil => simp [addMatN, cellN]
    | cons s ss =>
      cases i with
      | zero =>
        simp only [addMatN, cellN, List.getD_cons_zero]
        exact getD_addRow r s j
      | succ i => simpa [addMatN, cellN] using ih ss i

theorem cellN_zerosMat (r d i j : ℕ) : cellN (zerosMat r d) i j = 0 := by
  unfold cellN zerosMat
  induction r generalizing i with
  | zero => simp
  | succ r ih =>
    cases i with
    | zero =>
      simp only [List.replicate_succ, List.getD_cons_zero]
      induction d generalizing j with
      | zero => simp
      | succ d ihd =>
        cases j with
        | zero => simp [List.replicate_succ]
        | succ j => simpa [List.replicate_succ] using ihd j
    | succ i => simpa [List.replicate_succ] using ih i

theorem cellN_sumRanks (parts : List (List (List ℕ))) (z : List (List ℕ))
    (i j : ℕ) :
    cellN (sumRanks z parts) i j
      = cellN z i j + (parts.map (fun p => cellN p i j)).sum := by
  induction parts generalizing z with
  | nil => simp [sumRanks]
  | cons p ps ih =>
    have h := ih (addMatN z p)
    simp only [sumRanks, List.foldl_cons] at h ⊢
    rw [h, cellN_addMatN, List.map_cons, List.sum_cons]
    omega

theorem getD_indicator_le_one (s : List ℚ) (h : ℚ) (j : ℕ) :
    (s.map (fun x => if h < x then (1 : ℕ) else 0)).getD j 0 ≤ 1 := by
  induction s generalizing j with
  | nil => simp
  | cons a as ih =>
    cases j with
    | zero => simp only [List.map_cons, List.getD_cons_zero]; split <;> simp
    | succ j => simpa using ih j

theorem cellN_rankIncr_le_one (h0row : List ℚ) (sT : Mat) (i j : ℕ) :
    cellN (rankIncr h0row sT) i j ≤ 1 := by
  induction h0row generalizing sT i with
  | nil => simp [rankIncr, cellN]
  | cons h hs ih =>
    cases sT with
    | nil => simp [rankIncr, cellN]
    | cons s ss =>
      cases i with
      | zero => simpa [rankIncr, cellN] using getD_indicator_le_one s h j
      | succ i => simpa [rankIncr, cellN] using ih ss i

theorem chunkLoop_ranks_le (sT : Mat) (b : Bool) (l : List RngOut) :
    ∀ (st : PermState) (r : List (List ℕ)) (h : List (List ℚ)) (i j : ℕ),
      cellN (chunkLoop sT b st r h l).1 i j ≤ cellN r i j + l.length := by
  induction l with
  | nil => intro st r h i j; simp [chunkLoop]
  | cons d ds ih =>
    intro st r h i j
    simp only [chunkLoop]
    have h1 := ih (permStep b st d)
      (addMatN r (rankIncr (amax0 (f_score (permStep b st d).tested
        (permStep b st d).target (permStep b st d).covars)) sT))
      (h ++ [amax0 (f_score (permStep b st d).tested
        (permStep b st d).target (permStep b st d).covars)]) i j
    have h2 := cellN_addMatN r (rankIncr (amax0 (f_score (permStep b st d).tested
        (permStep b st d).target (permStep b st d).covars)) sT) i j
    have h3 := cellN_rankIncr_le_one (amax0 (f_score (permStep b st d).tested
        (permStep b st d).target (permStep b st d).covars)) sT i j
    simp only [List.length_cons]
    omega

theorem chunkLoop_append (sT : Mat) (b : Bool) (l1 l2 : List RngOut) :
    ∀ (st : PermState) (r : List (List ℕ)) (h : List (List ℚ)),
      chunkLoop sT b st r h (l1 ++ l2) =
        chunkLoop sT b (chunkLoop sT b st r h l1).2.2
          (chunkLoop sT b st r h l1).1 (chunkLoop sT b st r h l1).2.1 l2 := by
  induction l1 with
  | nil => intro st r h; simp [chunkLoop]
  | cons d ds ih =>
    intro st r h
    simp only [List.cons_append, chunkLoop]
    exact ih ..

theorem chunkLoop_cell_exchange (sT : Mat) (b : Bool) (l : List RngOut) :
    ∀ (st : PermState) (r1 r2 : List (List ℕ)) (h1 h2 : List (List ℚ)) (i j : ℕ),
      cellN (chunkLoop sT b st r1 h1 l).1 i j + cellN r2 i j =
      cellN (chunkLoop sT b st r2 h2 l).1 i j + cellN r1 i j := by
  induction l with
  | nil => intro st r1 r2 h1 h2 i j; simp [chunkLoop]; omega
  | cons d ds ih =>
    intro st r1 r2 h1 h2 i j
    simp only [chunkLoop]
    have key := ih (permStep b st d)
      (addMatN r1 (rankIncr (amax0 (f_score (permStep b st d).tested
        (permStep b st d).target (permStep b st d).covars)) sT))
      (addMatN r2 (rankIncr (amax0 (f_score (permStep b st d).tested
        (permStep b st d).target (permStep b st d).covars)) sT))
      (h1 ++ [amax0 (f_score (permStep b st d).tested
        (permStep b st d).target (permStep b st d).covars)])
      (h2 ++ [amax0 (f_score (permStep b st d).tested
        (permStep b st d).target (permStep b st d).covars)]) i j
    rw [cellN_addMatN, cellN_addMatN] at key
    omega

theorem perm_chunks_sum (n_perm n_jobs : ℤ) :
    (perm_chunks n_perm n_jobs).sum = n_perm.toNat := by
  unfold perm_chunks
  split
  · rw [List.sum_append, List.sum_replicate, smul_eq_mul]
    cases h : n_jobs.toNat with
    | zero => simp
    | succ m =>
      simp only [Nat.succ_sub_one, List.sum_cons, List.sum_nil, Nat.add_zero]
      rw [← Nat.add_assoc, ← Nat.succ_mul]
      exact Nat.div_add_mod _ _
  · simp

theorem chunkDraws_length (rng : ℕ → ℕ → RngOut) (c : ℕ) :
    (chunkDraws rng c).length = c := by
  simp [chunkDraws]

theorem getD_map_lt {α β : Type} (f : α → β) (l : List α) (i : ℕ)
    (h : i < l.length) (d1 : α) (d2 : β) :
    (l.map f).getD i d2 = f (l.getD i d1) := by
  induction l generalizing i with
  | nil => simp at h
  | cons a as ih =>
    cases i with
    | zero => simp
    | succ i => simpa using ih i (by simpa using h)

theorem getD_zipWith_lt {α β γ : Type} (f : α → β → γ) (a : List α)
    (b : List β) (i : ℕ) (ha : i < a.length) (hb : i < b.length)
    (da : α) (db : β) (dc : γ) :
    (List.zipWith f a b).getD i dc = f (a.getD i da) (b.getD i db) := by
  induction a generalizing b i with
  | nil => simp at ha
  | cons x xs ih =>
    cases b with
    | nil => simp at hb
    | cons y ys =>
      cases i with
      | zero => simp
      | succ i => simpa using ih ys i (by simpa using ha) (by simpa using hb)

theorem getD_range (n i : ℕ) (h : i < n) : (List.range n).getD i 0 = i := by
  induction n generalizing i with
  | zero => omega
  | succ n ih =>
    rcases Nat.lt_succ_iff_lt_or_eq.mp h with h' | h'
    · rw [List.range_succ, List.getD_append _ _ _ _ (by simpa using h')]
      exact ih i h'
    · subst h'
      rw [List.range_succ]
      rw [List.getD_append_right _ _ _ _ (by simp)]
      simp

/-! ### Cell-level description of the fast F-score path -/

theorem length_mtranspose (m : Mat) : (mtranspose m).length = ncols m := by
  simp [mtranspose]

theorem getD_mtranspose (m : Mat) (i : ℕ) (h : i < ncols m) :
    (mtranspose m).getD i [] = colOf m i := by
  unfold mtranspose
  rw [getD_map_lt _ _ i (by simpa using h) 0 []]
  rw [getD_range _ _ h]

theorem length_matmul (a b : Mat) : (matmul a b).length = a.length := by
  simp [matmul]

theorem getD_matmul (a b : Mat) (i : ℕ) (h : i < a.length) :
    (matmul a b).getD i [] =
      (mtranspose b).map (fun col => dotQ (a.getD i []) col) := by
  unfold matmul
  rw [getD_map_lt _ _ i h []]

theorem length_b2 (vars1 vars2 : Mat) :
    (b2_of vars1 vars2).length = ncols vars2 := by
  simp [b2_of, length_matmul, length_mtranspose]

theorem b2_row (vars1 vars2 : Mat) (i : ℕ) (hi : i < ncols vars2) :
    (b2_of vars1 vars2).getD i [] =
      (mtranspose vars1).map
        (fun col => dotQ (colOf vars2 i) col * dotQ (colOf vars2 i) col) := by
  unfold b2_of
  rw [getD_map_lt _ _ i (by rw [length_matmul, length_mtranspose]; exact hi) []]
  rw [getD_matmul _ _ i (by rw [length_mtranspose]; exact hi)]
  rw [getD_mtranspose _ _ hi, List.map_map]
  rfl

theorem b2_row_length (vars1 vars2 : Mat) (i : ℕ) (hi : i < ncols vars2) :
    ((b2_of vars1 vars2).getD i []).length = ncols vars1 := by
  rw [b2_row _ _ i hi]
  simp [length_mtranspose]

theorem cellQ_b2 (vars1 vars2 : Mat) (i j : ℕ) (hi : i < ncols vars2)
    (hj : j < ncols vars1) :
    cellQ (b2_of vars1 vars2) i j =
      dotQ (colOf vars2 i) (colOf vars1 j) *
        dotQ (colOf vars2 i) (colOf vars1 j) := by
  unfold cellQ
  rw [b2_row _ _ i hi]
  rw [getD_map_lt _ _ j (by rw [length_mtranspose]; exact hj) []]
  rw [getD_mtranspose _ _ hj]

theorem length_a2 (vars2 c : Mat) : (a2_of vars2 c).length = ncols vars2 := by
  simp [a2_of, length_matmul, length_mtranspose]

theorem getD_a2 (vars2 c : Mat) (i : ℕ) (hi : i < ncols vars2) :
    (a2_of vars2 c).getD i 0 =
      ((List.range (ncols c)).map
        (fun k => dotQ (colOf vars2 i) (colOf c k) *
          dotQ (colOf vars2 i) (colOf c k))).sum := by
  unfold a2_of
  rw [getD_map_lt _ _ i (by rw [length_matmul, length_mtranspose]; exact hi) []]
  rw [getD_matmul _ _ i (by rw [length_mtranspose]; exact hi)]
  rw [getD_mtranspose _ _ hi]
  unfold mtranspose
  rw [List.map_map, List.map_map]
  rfl

theorem cellQ_rss_none (vars1 vars2 : Mat) (i j : ℕ) (hi : i < ncols vars2)
    (hj : j < ncols vars1) :
    cellQ (rss_of vars1 vars2 none) i j = 1 - cellQ (b2_of vars1 vars2) i j := by
  unfold rss_of cellQ
  rw [getD_map_lt _ _ i (by rw [length_b2]; exact hi) []]
  rw [getD_map_lt _ _ j (by rw [b2_row_length _ _ i hi]; exact hj) 0]

theorem cellQ_rss_some (vars1 vars2 c : Mat) (i j : ℕ) (hi : i < ncols vars2)
    (hj : j < ncols vars1) :
    cellQ (rss_of vars1 vars2 (some c)) i j =
      1 - (a2_of vars2 c).getD i 0 - cellQ (b2_of vars1 vars2) i j := by
  unfold rss_of cellQ
  rw [getD_zipWith_lt _ _ _ i (by rw [length_b2]; exact hi)
    (by rw [length_a2]; exact hi) [] 0 []]
  rw [getD_map_lt _ _ j (by rw [b2_row_length _ _ i hi]; exact hj) 0]

theorem lt_length_rss (vars1 vars2 : Mat) (covars : Option Mat) (i : ℕ)
    (hi : i < ncols vars2) : i < (rss_of vars1 vars2 covars).length := by
  cases covars with
  | none => simpa [rss_of, length_b2] using hi
  | some c => simpa [rss_of, length_b2, length_a2] using hi

theorem rss_row_length (vars1 vars2 : Mat) (covars : Option Mat) (i : ℕ)
    (hi : i < ncols vars2) :
    ((rss_of vars1 vars2 covars).getD i []).length = ncols vars1 := by
  cases covars with
  | none =>
    unfold rss_of
    rw [getD_map_lt _ _ i (by rw [length_b2]; exact hi) []]
    rw [List.length_map, b2_row_length _ _ i hi]
  | some c =>
    unfold rss_of
    rw [getD_zipWith_lt _ _ _ i (by rw [length_b2]; exact hi)
      (by rw [length_a2]; exact hi) [] 0 []]
    rw [List.length_map, b2_row_length _ _ i hi]

theorem cellQ_f_score (vars1 vars2 : Mat) (covars : Option Mat) (i j : ℕ)
    (hi : i < ncols vars2) (hj : j < ncols vars1) :
    cellQ (f_score vars1 vars2 covars) i j =
      cellQ (b2_of vars1 vars2) i j / cellQ (rss_of vars1 vars2 covars) i j *
        ((nrows vars2 : ℚ) - 1 - (lost_dof covars : ℚ)) := by
  unfold f_score cellQ
  rw [getD_zipWith_lt _ _ _ i (by rw [length_b2]; exact hi)
    (lt_length_rss _ _ _ i hi) [] [] []]
  rw [getD_zipWith_lt _ _ _ j (by rw [b2_row_length _ _ i hi]; exact hj)
    (by rw [rss_row_length _ _ _ i hi]; exact hj) 0 0 0]

/-! ### Bounds on the gathered rank accumulator -/

theorem cellN_chunk_le (s t g : Mat) (c : Option Mat) (b : Bool)
    (draws : List RngOut) (i j : ℕ) :
    cellN (permuted_ols_on_chunk s t g c b draws).1 i j ≤ draws.length := by
  unfold permuted_ols_on_chunk
  have h := chunkLoop_ranks_le (mtranspose s) b draws ⟨t, g, c⟩
    (zerosMat (ncols t) (ncols g)) [] i j
  simpa [cellN_zerosMat] using h

theorem cellN_ols_ranks_le (E : Ext) (rng : ℕ → ℕ → RngOut) (tv gv : Mat)
    (cv : Option Mat) (mi : Bool) (n_perm nj : ℤ) (i j : ℕ) :
    cellN (ols_ranks E rng tv gv cv mi n_perm nj) i j ≤ n_perm.toNat := by
  unfold ols_ranks
  rw [cellN_sumRanks, cellN_zerosMat, Nat.zero_add]
  unfold ols_parts
  rw [List.map_map, List.map_map]
  have hle := List.sum_le_sum (l := perm_chunks n_perm nj) (g := id)
    (f := fun c => cellN
      ((permuted_ols_on_chunk (scores_original E tv gv cv mi)
        (ols_prepared E tv gv cv mi).1
        (mtranspose (ols_prepared E tv gv cv mi).2.1)
        (ols_prepared E tv gv cv mi).2.2
        (intercept_test_of tv) (chunkDraws rng c)).1) i j)
    (fun c _ => by
      simpa [chunkDraws_length] using
        cellN_chunk_le (scores_original E tv gv cv mi)
          (ols_prepared E tv gv cv mi).1
          (mtranspose (ols_prepared E tv gv cv mi).2.1)
          (ols_prepared E tv gv cv mi).2.2
          (intercept_test_of tv) (chunkDraws rng c) i j)
  rw [List.map_id] at hle
  calc _ ≤ (perm_chunks n_perm nj).sum := hle
    _ = n_perm.toNat := perm_chunks_sum _ _

theorem length_ols_pvals (E : Ext) (rng : ℕ → ℕ → RngOut) (tv gv : Mat)
    (cv : Option Mat) (mi : Bool) (n_perm nj : ℤ) :
    (ols_pvals E rng tv gv cv mi n_perm nj).length =
      (ols_ranks E rng tv gv cv mi n_perm nj).length := by
  simp [ols_pvals]

theorem cellQ_ols_pvals (E : Ext) (rng : ℕ → ℕ → RngOut) (tv gv : Mat)
    (cv : Option Mat) (mi : Bool) (n_perm nj : ℤ) (i j : ℕ)
    (hi : i < (ols_ranks E rng tv gv cv mi n_perm nj).length)
    (hj : j < ((ols_ranks E rng tv gv cv mi n_perm nj).getD i []).length) :
    cellQ (ols_pvals E rng tv gv cv mi n_perm nj) i j =
      ((n_perm : ℚ) + 1 -
        (cellN (ols_ranks E rng tv gv cv mi n_perm nj) i j : ℚ)) /
        (1 + (n_perm : ℚ)) := by
  unfold ols_pvals cellQ cellN
  rw [getD_map_lt _ _ i hi []]
  rw [getD_map_lt _ _ j hj 0]

theorem row_ols_pvals (E : Ext) (rng : ℕ → ℕ → RngOut) (tv gv : Mat)
    (cv : Option Mat) (mi : Bool) (n_perm nj : ℤ) (i : ℕ)
    (hi : i < (ols_ranks E rng tv gv cv mi n_perm nj).length) :
    ((ols_pvals E rng tv gv cv mi n_perm nj).getD i []).length =
      ((ols_ranks E rng tv gv cv mi n_perm nj).getD i []).length := by
  unfold ols_pvals
  rw [getD_map_lt _ _ i hi []]
  simp

/-! ### The claims -/

/-- C8: rank-accumulator reduction is partition-invariant.  For a fixed
true-score matrix `s` and a fixed sequence of permutation draws `ps.flatten`,
summing (with the orchestrator's elementwise reduction, seeded with its zero
accumulator) the rank accumulators produced by running the chunk worker on
the consecutive pieces of any partition `ps` of that sequence gives,
elementwise, exactly the rank accumulator produced by running the worker once
on the whole sequence.  The reduction itself (`addMatN`) is associative and
commutative with identity zero, which is what the proof exploits. -/
theorem c8_rank_reduction_partition_invariant (s : Mat) (b : Bool)
    (ps : List (List RngOut)) :
    ∀ (st : PermState) (i j : ℕ),
      cellN (sumRanks (zerosMat (ncols st.tested) (ncols st.target))
        (run_pieces s b st ps).1) i j =
      cellN (permuted_ols_on_chunk s st.tested st.target st.covars b
        ps.flatten).1 i j := by
  induction ps with
  | nil =>
    intro st i j
    simp only [run_pieces, List.flatten_nil, permuted_ols_on_chunk, chunkLoop]
    rw [cellN_sumRanks]
    simp [cellN_zerosMat]
  | cons p ps ih =>
    intro st i j
    have hst : (⟨st.tested, st.target, st.covars⟩ : PermState) = st := rfl
    simp only [run_pieces, List.flatten_cons, permuted_ols_on_chunk, hst]
    rw [cellN_sumRanks, cellN_zerosMat, List.map_cons, List.sum_cons]
    rw [chunkLoop_append (mtranspose s) b p ps.flatten st
      (zerosMat (ncols st.tested) (ncols st.target)) []]
    have hex := chunkLoop_cell_exchange (mtranspose s) b ps.flatten
      (chunkLoop (mtranspose s) b st
        (zerosMat (ncols st.tested) (ncols st.target)) [] p).2.2
      (chunkLoop (mtranspose s) b st
        (zerosMat (ncols st.tested) (ncols st.target)) [] p).1
      (zerosMat
        (ncols (chunkLoop (mtranspose s) b st
          (zerosMat (ncols st.tested) (ncols st.target)) [] p).2.2.tested)
        (ncols (chunkLoop (mtranspose s) b st
          (zerosMat (ncols st.tested) (ncols st.target)) [] p).2.2.target))
      (chunkLoop (mtranspose s) b st
        (zerosMat (ncols st.tested) (ncols st.target)) [] p).2.1 [] i j
    rw [cellN_zerosMat] at hex
    have hIH := ih (chunkLoop (mtranspose s) b st
      (zerosMat (ncols st.tested) (ncols st.target)) [] p).2.2 i j
    rw [cellN_sumRanks, cellN_zerosMat] at hIH
    simp only [permuted_ols_on_chunk] at hIH
    have hst2 : (⟨(chunkLoop (mtranspose s) b st
        (zerosMat (ncols st.tested) (ncols st.target)) [] p).2.2.tested,
      (chunkLoop (mtranspose s) b st
        (zerosMat (ncols st.tested) (ncols st.target)) [] p).2.2.target,
      (chunkLoop (mtranspose s) b st
        (zerosMat (ncols st.tested) (ncols st.target)) [] p).2.2.covars⟩ :
        PermState) =
      (chunkLoop (mtranspose s) b st
        (zerosMat (ncols st.tested) (ncols st.target)) [] p).2.2 := rfl
    rw [hst2] at hIH
    omega

/-- C1: the intercept-test branch is claimed to multiply every sample's
target row by an independently drawn ±1.  The source (lines 209-210)
computes `(target_vars * rng.randint(2, size=(1, n_samples)) * 2 - 1)`, i.e.
`(t * r) * 2 - 1` with the draw broadcast over columns, not
`t * (r * 2 - 1)` over rows.  On the one-sample one-descriptor target
`[[2]]` with the draw `r = [1]` the permuted copy is `[[3]]`, which is
neither the original row nor its negation, refuting the claim at this
input. -/
theorem c1_sign_swap_not_row_sign :
    (permStep true ⟨[[2]], [[2]], none⟩ ⟨[1], []⟩).target = [[3]] ∧
    ¬ rowSignOnly [[2]]
      ((permStep true ⟨[[2]], [[2]], none⟩ ⟨[1], []⟩).target) := by
  have h : (permStep true ⟨[[2]], [[2]], none⟩ ⟨[1], []⟩).target = [[3]] := by
    norm_num [permStep, sign_swap]
  refine ⟨h, ?_⟩
  rw [h]
  rintro ⟨-, hall⟩
  have h0 := hall 0 (by norm_num)
  simp only [List.getD_cons_zero, List.map_cons, List.map_nil] at h0
  rcases h0 with h0 | h0 <;> norm_num at h0

/-- C2: the claim says the second returned value has shape
regressors × descriptors, matching the p-value matrix.  On a run with one
regressor and two descriptors the engine returns the F-scores as a 2 × 1
matrix (descriptors × regressors, the shape `_f_score` produces, line 419
returns it untransposed) while the p-value matrix is 1 × 2, refuting the
claim. -/
theorem c2_f_scores_transposed :
    permuted_ols extEx rngId [[1], [0], [0]] [[3, 0], [4, 3], [0, 4]] none
        false 1 none 1 = .ok ([[1, 1]], [[9/8], [0]], [9/8]) ∧
    nrows [[(9 : ℚ)/8], [0]] = 2 ∧ ncols [[(9 : ℚ)/8], [0]] = 1 ∧
    nrows [[(1 : ℚ), 1]] = 1 ∧ ncols [[(1 : ℚ), 1]] = 2 ∧
    nrows [[(9 : ℚ)/8], [0]] ≠ nrows [[(1 : ℚ), 1]] := by
  refine ⟨?_, by norm_num [nrows], by norm_num [ncols], by norm_num [nrows],
    by norm_num [ncols], by norm_num [nrows]⟩
  norm_num [permuted_ols, resolve_n_jobs, resolved_n_jobs, ols_pvals, ols_ranks,
    ols_parts, ols_h0, scores_original, ols_prepared, residualize,
    adjusted_confounds, intercept_test_of, uniqueCount1,
    normalize_matrix_on_axis, normalize0, colNorms, mtranspose, ncols, nrows,
    colOf, matmul, dotQ, f_score, b2_of, rss_of, lost_dof, perm_chunks,
    chunkDraws, permuted_ols_on_chunk, chunkLoop, permStep, apply_shuffle,
    amax0, rankIncr, addMatN, addRow, zerosMat, sumRanks, hstackList, hstack2,
    sqrtEx, svdEx, extEx, rngId, List.range_succ]

/-- C3: for `n_perm ≥ 1` and a valid worker count, the run returns and every
cell of the p-value matrix equals `(n_perm + 1 - rank) / (n_perm + 1)` where
`rank` is the corresponding cell of the gathered rank accumulator (the count
of permutations whose per-regressor maximum fell strictly below that cell's
true score); `rank ≤ n_perm`, so every p-value is at least
`1 / (n_perm + 1)` and strictly positive (hence its negative log10 is a
finite real number). -/
theorem c3_pvalue_formula (E : Ext) (rng : ℕ → ℕ → RngOut) (tv gv : Mat)
    (cv : Option Mat) (mi : Bool) (n_perm : ℤ) (rs : Option ℕ) (n_jobs : ℤ)
    (hperm : 1 ≤ n_perm) (hjobs : n_jobs ≠ 0) :
    ∃ pv sc h0,
      permuted_ols E rng tv gv cv mi n_perm rs n_jobs = .ok (pv, sc, h0) ∧
      ∀ i j, i < pv.length → j < (pv.getD i []).length →
        ∃ rank : ℕ,
          rank = cellN (ols_ranks E rng tv gv cv mi n_perm
            (resolved_n_jobs E.cpuCount n_jobs)) i j ∧
          rank ≤ n_perm.toNat ∧
          cellQ pv i j = ((n_perm : ℚ) + 1 - (rank : ℚ)) / (1 + (n_perm : ℚ)) ∧
          1 / ((n_perm : ℚ) + 1) ≤ cellQ pv i j ∧
          0 < cellQ pv i j := by
  refine ⟨ols_pvals E rng tv gv cv mi n_perm (resolved_n_jobs E.cpuCount n_jobs),
    scores_original E tv gv cv mi,
    ols_h0 E rng tv gv cv mi n_perm (resolved_n_jobs E.cpuCount n_jobs),
    ?_, ?_⟩
  · simp only [permuted_ols, resolve_n_jobs, if_neg hjobs,
      if_neg (show ¬ n_perm ≤ 0 by omega)]
  · intro i j hi hj
    have hi' : i < (ols_ranks E rng tv gv cv mi n_perm
        (resolved_n_jobs E.cpuCount n_jobs)).length := by
      rw [← length_ols_pvals]; exact hi
    have hj' : j < ((ols_ranks E rng tv gv cv mi n_perm
        (resolved_n_jobs E.cpuCount n_jobs)).getD i []).length := by
      rw [← row_ols_pvals E rng tv gv cv mi n_perm
        (resolved_n_jobs E.cpuCount n_jobs) i hi']
      exact hj
    have hrle := cellN_ols_ranks_le E rng tv gv cv mi n_perm
      (resolved_n_jobs E.cpuCount n_jobs) i j
    have hcell := cellQ_ols_pvals E rng tv gv cv mi n_perm
      (resolved_n_jobs E.cpuCount n_jobs) i j hi' hj'
    have hNpos : (0 : ℚ) < (n_perm : ℚ) + 1 := by
      have : (1 : ℚ) ≤ (n_perm : ℚ) := by exact_mod_cast hperm
      linarith
    have hrQ : (cellN (ols_ranks E rng tv gv cv mi n_perm
        (resolved_n_jobs E.cpuCount n_jobs)) i j : ℚ) ≤ (n_perm : ℚ) := by
      have h2 : (cellN (ols_ranks E rng tv gv cv mi n_perm
          (resolved_n_jobs E.cpuCount n_jobs)) i j : ℤ) ≤ n_perm := by
        calc (cellN (ols_ranks E rng tv gv cv mi n_perm
              (resolved_n_jobs E.cpuCount n_jobs)) i j : ℤ)
            ≤ (n_perm.toNat : ℤ) := by exact_mod_cast hrle
          _ = n_perm := Int.toNat_of_nonneg (by omega)
      exact_mod_cast h2
    have hge : 1 / ((n_perm : ℚ) + 1) ≤ cellQ (ols_pvals E rng tv gv cv mi
        n_perm (resolved_n_jobs E.cpuCount n_jobs)) i j := by
      rw [hcell]
      rw [show (1 : ℚ) + (n_perm : ℚ) = (n_perm : ℚ) + 1 from add_comm _ _]
      rw [div_le_div_iff_of_pos_right hNpos]
      linarith
    have hpos : 0 < cellQ (ols_pvals E rng tv gv cv mi n_perm
        (resolved_n_jobs E.cpuCount n_jobs)) i j :=
      lt_of_lt_of_le (by positivity) hge
    exact ⟨cellN (ols_ranks E rng tv gv cv mi n_perm
      (resolved_n_jobs E.cpuCount n_jobs)) i j, rfl, hrle, hcell, hge, hpos⟩

/-- Witness for C3: the formula and bounds hold on the concrete
one-regressor, two-descriptor, one-permutation run. -/
theorem c3_pvalue_formula_witness :
    ((1 : ℤ) ≤ 1 ∧ (1 : ℤ) ≠ 0) ∧
    (∃ pv sc h0,
      permuted_ols extEx rngId [[1], [0], [0]] [[3, 0], [4, 3], [0, 4]] none
        false 1 none 1 = .ok (pv, sc, h0) ∧
      ∀ i j, i < pv.length → j < (pv.getD i []).length →
        ∃ rank : ℕ,
          rank = cellN (ols_ranks extEx rngId [[1], [0], [0]]
            [[3, 0], [4, 3], [0, 4]] none false 1
            (resolved_n_jobs extEx.cpuCount 1)) i j ∧
          rank ≤ (1 : ℤ).toNat ∧
          cellQ pv i j = (((1 : ℤ) : ℚ) + 1 - (rank : ℚ)) / (1 + ((1 : ℤ) : ℚ)) ∧
          1 / (((1 : ℤ) : ℚ) + 1) ≤ cellQ pv i j ∧
          0 < cellQ pv i j) :=
  ⟨⟨le_refl 1, by norm_num⟩,
   c3_pvalue_formula extEx rngId [[1], [0], [0]] [[3, 0], [4, 3], [0, 4]] none
     false 1 none 1 (le_refl 1) (by norm_num)⟩

/-- C4: on the fast (normalized-design) path, every in-range cell of the
F-score matrix equals `(b2 / rss) * dof` with `dof = n_samples - 1 -`
(number of covariate columns, or 0 without covariates), `b2` the squared dot
product of the normalized target column and regressor column, and
`rss = 1 - b2` without covariates or `1 - a2 - b2` with covariates, `a2`
being the squared norm of the target's projections onto the covariate
basis. -/
theorem c4_f_score_cell_formula (vars1 vars2 : Mat) (covars : Option Mat)
    (i j : ℕ) (hi : i < ncols vars2) (hj : j < ncols vars1) :
    cellQ (f_score vars1 vars2 covars) i j =
      dotQ (colOf vars2 i) (colOf vars1 j) ^ 2 /
        (match covars with
         | none => 1 - dotQ (colOf vars2 i) (colOf vars1 j) ^ 2
         | some c =>
             1 - ((List.range (ncols c)).map
                   (fun k => dotQ (colOf vars2 i) (colOf c k) ^ 2)).sum
               - dotQ (colOf vars2 i) (colOf vars1 j) ^ 2) *
        ((nrows vars2 : ℚ) - 1 - (lost_dof covars : ℚ)) := by
  rw [cellQ_f_score _ _ _ i j hi hj, cellQ_b2 _ _ i j hi hj]
  cases covars with
  | none =>
    rw [cellQ_rss_none _ _ i j hi hj, cellQ_b2 _ _ i j hi hj]
    simp only [pow_two]
  | some c =>
    rw [cellQ_rss_some _ _ _ i j hi hj, cellQ_b2 _ _ i j hi hj,
      getD_a2 _ _ i hi]
    simp only [pow_two]

/-- Witness for C4: the formula evaluated on a concrete normalized design
without covariates. -/
theorem c4_f_score_cell_formula_witness :
    ((0 : ℕ) < ncols [[(3 : ℚ)/5], [4/5]] ∧ (0 : ℕ) < ncols [[(1 : ℚ)], [0]]) ∧
    cellQ (f_score [[(1 : ℚ)], [0]] [[(3 : ℚ)/5], [4/5]] none) 0 0 =
      dotQ (colOf [[(3 : ℚ)/5], [4/5]] 0) (colOf [[(1 : ℚ)], [0]] 0) ^ 2 /
        (1 - dotQ (colOf [[(3 : ℚ)/5], [4/5]] 0) (colOf [[(1 : ℚ)], [0]] 0) ^ 2) *
        ((nrows [[(3 : ℚ)/5], [4/5]] : ℚ) - 1 - (lost_dof none : ℚ)) :=
  ⟨⟨by norm_num [ncols], by norm_num [ncols]⟩,
   c4_f_score_cell_formula [[(1 : ℚ)], [0]] [[(3 : ℚ)/5], [4/5]] none 0 0
     (by norm_num [ncols]) (by norm_num [ncols])⟩

/-- C5 counterexample: the claim asserts an explicit floor keeps the
residual-sum-of-squares denominator away from zero.  On the normalized
one-column design whose target equals its regressor (`b2 = 1`) the `rss`
matrix computed by the source is exactly `[[0]]`, so the denominator of the
division `b2 / rss` is not positive: no floor is applied. -/
theorem c5_rss_floor_counterexample :
    rss_of [[(3 : ℚ)/5], [4/5]] [[(3 : ℚ)/5], [4/5]] none = [[0]] ∧
    ¬ 0 < cellQ (rss_of [[(3 : ℚ)/5], [4/5]] [[(3 : ℚ)/5], [4/5]] none) 0 0 := by
  have h : rss_of [[(3 : ℚ)/5], [4/5]] [[(3 : ℚ)/5], [4/5]] none = [[0]] := by
    norm_num [rss_of, b2_of, matmul, mtranspose, ncols, colOf, dotQ,
      List.range_succ]
  refine ⟨h, ?_⟩
  rw [h]
  norm_num [cellQ]

/-- C5 amended: the F-score computation applies no floor at all — the
denominator of `b2 / rss` is exactly `1 - b2` (without covariates) or
`1 - a2 - b2` (with covariates), and it is exactly zero on a target
identical to a regressor.  (Under numpy semantics the division then emits a
warning and a non-finite value rather than raising, so no exception crashes
the worker, but no explicit guard exists.) -/
theorem c5_rss_unfloored (vars1 vars2 : Mat) (covars : Option Mat) (i j : ℕ)
    (hi : i < ncols vars2) (hj : j < ncols vars1) :
    cellQ (rss_of vars1 vars2 covars) i j =
      (match covars with
       | none => 1 - cellQ (b2_of vars1 vars2) i j
       | some c => 1 - (a2_of vars2 c).getD i 0 -
           cellQ (b2_of vars1 vars2) i j) ∧
    cellQ (rss_of [[(3 : ℚ)/5], [4/5]] [[(3 : ℚ)/5], [4/5]] none) 0 0 = 0 := by
  constructor
  · cases covars with
    | none => exact cellQ_rss_none _ _ i j hi hj
    | some c => exact cellQ_rss_some _ _ _ i j hi hj
  · norm_num [rss_of, b2_of, matmul, mtranspose, ncols, colOf, dotQ, cellQ,
      List.range_succ]

/-- Witness for the amended C5 on a concrete design. -/
theorem c5_rss_unfloored_witness :
    ((0 : ℕ) < ncols [[(3 : ℚ)/5], [4/5]] ∧ (0 : ℕ) < ncols [[(1 : ℚ)], [0]]) ∧
    (cellQ (rss_of [[(1 : ℚ)], [0]] [[(3 : ℚ)/5], [4/5]] none) 0 0 =
      1 - cellQ (b2_of [[(1 : ℚ)], [0]] [[(3 : ℚ)/5], [4/5]]) 0 0 ∧
     cellQ (rss_of [[(3 : ℚ)/5], [4/5]] [[(3 : ℚ)/5], [4/5]] none) 0 0 = 0) :=
  ⟨⟨by norm_num [ncols], by norm_num [ncols]⟩,
   c5_rss_unfloored [[(1 : ℚ)], [0]] [[(3 : ℚ)/5], [4/5]] none 0 0
     (by norm_num [ncols]) (by norm_num [ncols])⟩

/-- C6: the claim says a negative `n_jobs` resolves to
`cpu_count - (|n_jobs| - 1)`, never above the CPU count.  The source
computes `max(1, cpu_count - n_jobs + 1) = cpu_count + |n_jobs| + 1`
(line 315): with 4 CPUs, `n_jobs = -1` resolves to 6, not to the claimed
`4 - (1 - 1) = 4`, and exceeds the CPU count.  The `n_jobs == 0` rejection
itself behaves as claimed. -/
theorem c6_negative_n_jobs_bug :
    resolve_n_jobs 4 (-1) = .ok 6 ∧
    resolved_n_jobs 4 (-1) = 6 ∧
    resolved_n_jobs 4 (-1) ≠ 4 - ((1 : ℤ) - 1) ∧
    ¬ resolved_n_jobs 4 (-1) ≤ 4 ∧
    resolve_n_jobs 4 0 = .error "n_jobs == 0 is not a valid choice" ∧
    (∀ z : ℤ, z ≠ 0 → resolve_n_jobs 4 z = .ok (resolved_n_jobs 4 z)) := by
  refine ⟨?_, ?_, ?_, ?_, ?_, ?_⟩
  · norm_num [resolve_n_jobs, resolved_n_jobs]
  · norm_num [resolved_n_jobs]
  · norm_num [resolved_n_jobs]
  · norm_num [resolved_n_jobs]
  · norm_num [resolve_n_jobs]
  · intro z hz
    simp [resolve_n_jobs, hz]

/-- C7: the claim says the third returned value is a sorted length-`n_perm`
null distribution.  On a three-permutation run the engine returns the first
regressor's per-permutation maxima in draw order, `[9/8, 32/9, 0]`, which has
the claimed length but is sorted in neither direction: no sort is applied
before returning (line 419). -/
theorem c7_null_distribution_unsorted :
    ∃ pv sc h0,
      permuted_ols extEx rngCyc [[1], [0], [0]] [[0], [3], [4]] none false 3
        none 1 = .ok (pv, sc, h0) ∧
      h0 = [9/8, 32/9, 0] ∧ h0.length = 3 ∧
      ¬ List.Chain' (· ≤ ·) h0 ∧ ¬ List.Chain' (· ≥ ·) h0 := by
  refine ⟨[[1]], [[0]], [9/8, 32/9, 0], ?_, rfl, by norm_num, ?_, ?_⟩
  · norm_num [permuted_ols, resolve_n_jobs, resolved_n_jobs, ols_pvals,
      ols_ranks, ols_parts, ols_h0, scores_original, ols_prepared, residualize,
      adjusted_confounds, intercept_test_of, uniqueCount1,
      normalize_matrix_on_axis, normalize0, colNorms, mtranspose, ncols, nrows,
      colOf, matmul, dotQ, f_score, b2_of, rss_of, lost_dof, perm_chunks,
      chunkDraws, permuted_ols_on_chunk, chunkLoop, permStep, apply_shuffle,
      amax0, rankIncr, addMatN, addRow, zerosMat, sumRanks, hstackList,
      hstack2, sqrtEx, svdEx, extEx, rngCyc, List.range_succ]
  · intro h
    rw [List.chain'_cons, List.chain'_cons] at h
    have := h.2.1
    norm_num at this
  · intro h
    rw [List.chain'_cons] at h
    have := h.1
    norm_num at this

/-- C9: a nonpositive permutation budget short-circuits — the run returns an
empty p-value array and an empty null distribution together with the
unpermuted scores, performs no permutation (the result does not depend on
the random stream at all), and the returned score matrix is exactly the
fast-path F-score of the residualized, normalized design. -/
theorem c9_no_permutation (E : Ext) (rng rng' : ℕ → ℕ → RngOut) (tv gv : Mat)
    (cv : Option Mat) (mi : Bool) (n_perm : ℤ) (rs rs' : Option ℕ)
    (n_jobs : ℤ) (hperm : n_perm ≤ 0) (hjobs : n_jobs ≠ 0) :
    permuted_ols E rng tv gv cv mi n_perm rs n_jobs =
      .ok ([], scores_original E tv gv cv mi, []) ∧
    permuted_ols E rng tv gv cv mi n_perm rs n_jobs =
      permuted_ols E rng' tv gv cv mi n_perm rs' n_jobs ∧
    scores_original E tv gv cv mi =
      f_score (ols_prepared E tv gv cv mi).1
        (mtranspose (ols_prepared E tv gv cv mi).2.1)
        (ols_prepared E tv gv cv mi).2.2 := by
  have h : ∀ (r : ℕ → ℕ → RngOut) (s : Option ℕ),
      permuted_ols E r tv gv cv mi n_perm s n_jobs =
        .ok ([], scores_original E tv gv cv mi, []) := by
    intro r s
    simp only [permuted_ols, resolve_n_jobs, if_neg hjobs, if_pos hperm]
  exact ⟨h rng rs, by rw [h rng rs, h rng' rs'], rfl⟩

/-- Witness for C9 on a concrete run with `n_perm = 0`. -/
theorem c9_no_permutation_witness :
    ((0 : ℤ) ≤ 0 ∧ (1 : ℤ) ≠ 0) ∧
    permuted_ols extEx rngId [[1], [0], [0]] [[0], [3], [4]] none true 0
      none 1 =
      .ok ([], scores_original extEx [[1], [0], [0]] [[0], [3], [4]] none true,
        []) :=
  ⟨⟨le_refl 0, by norm_num⟩,
   (c9_no_permutation extEx rngId rngCyc [[1], [0], [0]] [[0], [3], [4]] none
     true 0 none none 1 (le_refl 0) (by norm_num)).1⟩

/-- C10: the `random_state` argument has no influence on any returned value —
the source never reads it and seeds every worker chunk with the literal `0`,
so any two `random_state` values give syntactically identical computations,
and every chunk's draw sequence is the seed-0 stream, so equal-sized chunks
consume identical draw sequences. -/
theorem c10_random_state_ignored (E : Ext) (rng : ℕ → ℕ → RngOut)
    (tv gv : Mat) (cv : Option Mat) (mi : Bool) (n_perm : ℤ) (n_jobs : ℤ)
    (rs rs' : Option ℕ) :
    permuted_ols E rng tv gv cv mi n_perm rs n_jobs =
      permuted_ols E rng tv gv cv mi n_perm rs' n_jobs ∧
    ∀ c : ℕ, chunkDraws rng c = (List.range c).map (rng 0) :=
  ⟨rfl, fun _ => rfl⟩

end Nilearn
